import Mathlib

/-!
Verification of the Merkle Patricia Trie implementations in this repository
(`eth_pat.py`, `ver_17.py`, `main.py`) against their natural-language
specification.

Shallow embedding conventions:
* Python byte-string keys are `List Nat` of byte values (< 256); the Python
  sources use `str` keys and `ord`, which agrees with bytes on the byte range.
* Nibble strings (Python strings of hex characters, e.g. "6361") are `List Nat`
  of hex-digit values 0..15; converting a nibble string to the bytes fed into
  `hashlib` maps digit `d` to the ASCII code of its hex character.
* Python exceptions (`IndexError` from out-of-range indexing, `ValueError`
  raised explicitly) are modelled with `Except PyErr`; a raised exception
  aborts the operation, exactly as an uncaught exception aborts the Python
  call.
* Values (`Any` in Python) are modelled by `PyVal` covering the value kinds
  the program and the claims use (int, str, bool); `Optional[Any]` fields are
  `Option PyVal`.  Python truthiness and `str(...)` are modelled by `pyTruthy`
  and `pyStrBytes`.
* Digests: the sources hash with SHA-256 and truncate the hex digest.  The
  model represents a digest by the exact byte stream fed to the hasher
  (`hashStream`), i.e. SHA-256 is idealised as injective; equal streams give
  equal real digests, and distinct streams give distinct digests under the
  standard collision-freeness assumption.  Where a parent hashes a child's
  digest string, the model appends the child's stream.
-/

/-- Python exception kinds raised by the modelled code paths:
`IndexError` from indexing an empty string/list, `ValueError` raised
explicitly (e.g. "Invalid nibbles length", "Key cannot be empty"). -/
inductive PyErr where
  | indexError : PyErr
  | valueError : PyErr
  deriving DecidableEq

/-- Python values stored in the tries: integers, strings (as byte lists) and
booleans.  `None` is represented by `Option.none` at use sites. -/
inductive PyVal where
  | int (n : Int) : PyVal
  | str (s : List Nat) : PyVal
  | bool (b : Bool) : PyVal
  deriving DecidableEq

/-- Python truthiness of a `PyVal`: `0`, `""` and `False` are falsy. -/
def pyTruthy : PyVal → Bool
  | .int n => n != 0
  | .str s => !s.isEmpty
  | .bool b => b

/-- Python truthiness of an `Optional[Any]` field: `None` is falsy. -/
def pyTruthyO : Option PyVal → Bool
  | none => false
  | some v => pyTruthy v

/-- Decimal digits (as ASCII byte values) of a natural number, most
significant first; empty for 0 (callers special-case 0). -/
def decDigits : Nat → List Nat
  | 0 => []
  | n + 1 => decDigits ((n + 1) / 10) ++ [48 + (n + 1) % 10]
decreasing_by exact Nat.div_lt_self (Nat.succ_pos n) (by norm_num)

/-- Bytes of Python `str(n)` for an integer `n` (decimal, `-` sign for
negatives). -/
def intStrBytes (n : Int) : List Nat :=
  if n = 0 then [48]
  else if n < 0 then 45 :: decDigits n.natAbs
  else decDigits n.natAbs

/-- Bytes of Python `str(v)` for a `PyVal`: decimal for ints, the string
itself for strings, `"True"` / `"False"` for booleans. -/
def pyStrBytes : PyVal → List Nat
  | .int n => intStrBytes n
  | .str s => s
  | .bool b => if b then [84, 114, 117, 101] else [70, 97, 108, 115, 101]

/-- Bytes of Python `str(v)` applied to an `Optional` value
(`str(None) = "None"`). -/
def pyStrBytesO : Option PyVal → List Nat
  | none => [78, 111, 110, 101]
  | some v => pyStrBytes v

/-- ASCII code of the lowercase hex character for a digit (as produced by
Python's `format(_, '02x')`). -/
def hexCharCode (d : Nat) : Nat :=
  if d < 10 then 48 + d else 87 + d

/-- Bytes of `path.encode()` for a nibble string stored as digit values. -/
def nibbleBytes (p : List Nat) : List Nat :=
  p.map hexCharCode

namespace EthPat

/-!
Model of `src/py/eth_pat.py` (`MPT17Node`, `MerklePatriciaTrie17`).  The
same node model and hash are used verbatim by `src/py/ver_17.py`; the
`Ver17` namespace below models the parts of `ver_17.py` that differ.
-/

/-- `MPT17Node`: the tagged node of the 17-ary Merkle Patricia Trie.
The Python class stores a 17-slot `branches` list for every node type;
Leaf nodes never use it, Extension nodes use only `branches[0]` (modelled
as the `ext` child field) and Branch nodes use slots 0..15 with the
terminator held in `value` (slot 16 is never assigned; the model keeps the
17-entry slot list to mirror iteration over all 17 entries).  The `hash`
attribute is write-only cache state in `eth_pat.py` (`calculate_hash`
always recomputes recursively), so it is omitted here. -/
inductive MPTNode where
  | blank : MPTNode
  | leaf (path : List Nat) (value : Option PyVal) : MPTNode
  | ext (path : List Nat) (child : Option MPTNode) : MPTNode
  | branch (slots : List (Option MPTNode)) (value : Option PyVal) : MPTNode

/-- The fresh 17-entry slot list `[None] * 17`. -/
def emptySlots : List (Option MPTNode) := List.replicate 17 none

/-- Hex digits of a natural number, most significant first; empty for 0. -/
def hexDigits : Nat → List Nat
  | 0 => []
  | n + 1 => hexDigits ((n + 1) / 16) ++ [(n + 1) % 16]
decreasing_by exact Nat.div_lt_self (Nat.succ_pos n) (by norm_num)

/-- Python `format(c, '02x')` as a list of hex-digit values: the hex
digits of `c`, zero-padded on the left to width at least 2. -/
def format02x (c : Nat) : List Nat :=
  let d := hexDigits c
  if d.length < 2 then List.replicate (2 - d.length) 0 ++ d else d

/-- `MerklePatriciaTrie17.string_to_nibbles`: each character/byte of the
key contributes `format(ord(char), '02x')`. -/
def stringToNibbles : List Nat → List Nat
  | [] => []
  | c :: rest => format02x c ++ stringToNibbles rest

/-- Recombine nibble pairs into byte values: `int(nibbles[i:i+2], 16)`. -/
def pairUp : List Nat → List Nat
  | a :: b :: rest => (16 * a + b) :: pairUp rest
  | _ => []

/-- `MerklePatriciaTrie17.nibbles_to_string`: raises
`ValueError("Invalid nibbles length")` on an odd-length nibble string,
otherwise decodes consecutive digit pairs back to byte values. -/
def nibblesToString (nibbles : List Nat) : Except PyErr (List Nat) :=
  if nibbles.length % 2 ≠ 0 then .error .valueError
  else .ok (pairUp nibbles)

/-- `MerklePatriciaTrie17.common_prefix_length`. -/
def commonPrefixLength : List Nat → List Nat → Nat
  | a :: as, b :: bs => if a = b then commonPrefixLength as bs + 1 else 0
  | _, _ => 0

mutual
/-- `MerklePatriciaTrie17._insert_recursive`, with the Python node
mutation-and-return pattern rendered functionally: the returned node is the
new subtree (the caller stores it back).  `show_steps` printing and the
`stats` bookkeeping are pure reporting and are dropped.  Indexing an empty
string (`node.path[0]` / `remaining_nibbles[0]` in the no-common-prefix
split branches) raises `IndexError`, modelled as `.error .indexError`. -/
def insertRecursive (node : MPTNode) (remaining : List Nat) (value : PyVal) :
    Except PyErr MPTNode :=
  match node with
  | .leaf path nodeValue =>
    let c := commonPrefixLength path remaining
    if c = path.length ∧ path.length = remaining.length then
      .ok (.leaf path (some value))
    else if 0 < c then
      let oldRem := path.drop c
      let newRem := remaining.drop c
      let b0 : List (Option MPTNode) := emptySlots
      let st1 :=
        match oldRem with
        | [] => (b0, nodeValue)
        | oldN :: oldRest => (b0.set oldN (some (.leaf oldRest nodeValue)), none)
      let st2 :=
        match newRem with
        | [] => (st1.1, some value)
        | newN :: newRest =>
          (st1.1.set newN (some (.leaf newRest (some value))), st1.2)
      .ok (.ext (path.take c) (some (.branch st2.1 st2.2)))
    else
      match path with
      | [] => .error .indexError
      | oldN :: oldRest =>
        let b1 := emptySlots.set oldN (some (.leaf oldRest nodeValue))
        match remaining with
        | [] => .error .indexError
        | newN :: newRest =>
          .ok (.branch (b1.set newN (some (.leaf newRest (some value)))) none)
  | .ext path child =>
    let c := commonPrefixLength path remaining
    if c = path.length then
      match child with
      | some ch => do
        let ch' ← insertRecursive ch (remaining.drop c) value
        .ok (.ext path (some ch'))
      | none => .ok (.ext path none)
    else if 0 < c then
      match path.drop c with
      | [] => .error .indexError
      | oldN :: oldRest =>
        let b0 :=
          if oldRest.length ≥ 1 then
            emptySlots.set oldN (some (.ext oldRest child))
          else
            emptySlots.set oldN child
        let st :=
          match remaining.drop c with
          | [] => (b0, some value)
          | newN :: newRest =>
            (b0.set newN (some (.leaf newRest (some value))), none)
        .ok (.ext (path.take c) (some (.branch st.1 st.2)))
    else
      match path with
      | [] => .error .indexError
      | oldN :: oldRest =>
        let b0 :=
          if oldRest.length ≥ 1 then
            emptySlots.set oldN (some (.ext oldRest child))
          else
            emptySlots.set oldN child
        match remaining with
        | [] => .error .indexError
        | newN :: newRest =>
          .ok (.branch (b0.set newN (some (.leaf newRest (some value)))) none)
  | .branch slots nodeValue =>
    match remaining with
    | [] => .ok (.branch slots (some value))
    | nib :: rest => do
      let slots' ← insertSlots slots nib rest value
      .ok (.branch slots' nodeValue)
  | .blank => .ok .blank

/-- Walks `node.branches` to position `nib`: reads the slot, creates a new
leaf in an empty slot or recurses into an occupied one, and writes the
result back (`node.branches[nibble] = ...`).  Walking past the end of the
17-entry list is Python's `IndexError`. -/
def insertSlots (slots : List (Option MPTNode)) (nib : Nat)
    (rest : List Nat) (value : PyVal) :
    Except PyErr (List (Option MPTNode)) :=
  match slots, nib with
  | [], _ => .error .indexError
  | c :: cs, 0 =>
    match c with
    | none => .ok (some (.leaf rest (some value)) :: cs)
    | some child => do
      let child' ← insertRecursive child rest value
      .ok (some child' :: cs)
  | c :: cs, n + 1 => do
    let cs' ← insertSlots cs n rest value
    .ok (c :: cs')
end

/-- `MerklePatriciaTrie17.insert` acting on the root node (the trie object
owns exactly the root): a Blank root is replaced by a fresh Leaf, otherwise
the root is replaced by the result of `_insert_recursive`.  There is no
empty-key check in the source. -/
def insertT (root : MPTNode) (key : List Nat) (value : PyVal) :
    Except PyErr MPTNode :=
  let nibbles := stringToNibbles key
  match root with
  | .blank => .ok (.leaf nibbles (some value))
  | _ => insertRecursive root nibbles value

/-- Fold a sequence of `insert` calls over the initially Blank root; an
uncaught exception aborts the whole run. -/
def buildTrie (ops : List (List Nat × PyVal)) : Except PyErr MPTNode :=
  ops.foldlM (fun t op => insertT t op.1 op.2) .blank

mutual
/-- `MerklePatriciaTrie17._search_recursive`. -/
def searchRecursive (node : Option MPTNode) (remaining : List Nat) :
    Option PyVal :=
  match node with
  | none => none
  | some .blank => none
  | some (.leaf path value) => if path = remaining then value else none
  | some (.ext path child) =>
    if path.isPrefixOf remaining then
      searchRecursive child (remaining.drop path.length)
    else none
  | some (.branch slots value) =>
    match remaining with
    | [] => value
    | nib :: rest => searchSlots slots nib rest

/-- Reads `node.branches[nibble]` for the branch case of the search walk;
the nibble is < 16 for every input reachable through `search` (nibble
strings come from `string_to_nibbles`), so the walk never runs off the
17-entry list there. -/
def searchSlots (slots : List (Option MPTNode)) (nib : Nat)
    (rest : List Nat) : Option PyVal :=
  match slots, nib with
  | [], _ => none
  | c :: _, 0 => searchRecursive c rest
  | _ :: cs, n + 1 => searchSlots cs n rest
end

/-- `MerklePatriciaTrie17.search`: no empty-key check in the source. -/
def searchT (root : MPTNode) (key : List Nat) : Option PyVal :=
  searchRecursive (some root) (stringToNibbles key)

/-- Bytes of `f"{i}:"` used for branch slots in `calculate_hash`. -/
def idxBytes (i : Nat) : List Nat :=
  (if i = 0 then [48] else decDigits i) ++ [58]

mutual
/-- `MPT17Node.calculate_hash`, as the exact byte stream fed to the
SHA-256 hasher (see the digest conventions in the file header): the node
type tag, then per node type the path bytes, value bytes (leaf values
contribute only when truthy; branch terminators only when not `None`,
preceded by `"value:"`) and child streams. -/
def hashStream (node : MPTNode) : List Nat :=
  match node with
  | .blank => [98, 108, 97, 110, 107]
  | .leaf path value =>
    [108, 101, 97, 102] ++ nibbleBytes path ++
      (if pyTruthyO value then pyStrBytesO value else [])
  | .ext path child =>
    [101, 120, 116, 101, 110, 115, 105, 111, 110] ++ nibbleBytes path ++
      (match child with
       | some ch => hashStream ch
       | none => [])
  | .branch slots value =>
    [98, 114, 97, 110, 99, 104] ++ hashSlots slots 0 ++
      (match value with
       | some v => [118, 97, 108, 117, 101, 58] ++ pyStrBytes v
       | none => [])

/-- The branch-slot fold of `calculate_hash`: populated slots contribute
`f"{i}:"` then the child's digest, in ascending index order `i`. -/
def hashSlots (slots : List (Option MPTNode)) (i : Nat) : List Nat :=
  match slots with
  | [] => []
  | none :: rest => hashSlots rest (i + 1)
  | some c :: rest => idxBytes i ++ hashStream c ++ hashSlots rest (i + 1)
end

mutual
/-- The structural invariant of claim C9 on a node: every Extension has a
non-empty path and every Branch has a populated slot or a terminator,
recursively. -/
def wfNode : MPTNode → Bool
  | .blank => true
  | .leaf _ _ => true
  | .ext path child => !path.isEmpty && wfChild child
  | .branch slots value =>
    (slots.any Option.isSome || value.isSome) && wfSlots slots

/-- `wfNode` through an optional child. -/
def wfChild : Option MPTNode → Bool
  | none => true
  | some n => wfNode n

/-- `wfNode` over every populated slot of a list. -/
def wfSlots : List (Option MPTNode) → Bool
  | [] => true
  | c :: cs => wfChild c && wfSlots cs
end

end EthPat

namespace Ver17

open EthPat

/-!
Model of `src/py/ver_17.py`'s `MerklePatriciaTrie17._insert_recursive`.
The node class, hash, nibble codec and search of `ver_17.py` are byte-for-
byte the same as `eth_pat.py`'s, and its leaf and branch insertion cases
are the same as well; the single difference is the Extension-split branch
(`common_len != len(node.path)`), which is left unimplemented: the comment
says "implementation omitted - more complex" and the node is returned
unchanged.
-/

mutual
/-- `ver_17.py`'s `_insert_recursive`: identical to `eth_pat.py`'s except
that the Extension-split branch returns the node unchanged (the new value
is silently dropped). -/
def insertRecursiveV (node : MPTNode) (remaining : List Nat) (value : PyVal) :
    Except PyErr MPTNode :=
  match node with
  | .leaf path nodeValue =>
    let c := commonPrefixLength path remaining
    if c = path.length ∧ path.length = remaining.length then
      .ok (.leaf path (some value))
    else if 0 < c then
      let oldRem := path.drop c
      let newRem := remaining.drop c
      let b0 : List (Option MPTNode) := emptySlots
      let st1 :=
        match oldRem with
        | [] => (b0, nodeValue)
        | oldN :: oldRest => (b0.set oldN (some (.leaf oldRest nodeValue)), none)
      let st2 :=
        match newRem with
        | [] => (st1.1, some value)
        | newN :: newRest =>
          (st1.1.set newN (some (.leaf newRest (some value))), st1.2)
      .ok (.ext (path.take c) (some (.branch st2.1 st2.2)))
    else
      match path with
      | [] => .error .indexError
      | oldN :: oldRest =>
        let b1 := emptySlots.set oldN (some (.leaf oldRest nodeValue))
        match remaining with
        | [] => .error .indexError
        | newN :: newRest =>
          .ok (.branch (b1.set newN (some (.leaf newRest (some value)))) none)
  | .ext path child =>
    let c := commonPrefixLength path remaining
    if c = path.length then
      match child with
      | some ch => do
        let ch' ← insertRecursiveV ch (remaining.drop c) value
        .ok (.ext path (some ch'))
      | none => .ok (.ext path none)
    else
      .ok (.ext path child)
  | .branch slots nodeValue =>
    match remaining with
    | [] => .ok (.branch slots (some value))
    | nib :: rest => do
      let slots' ← insertSlotsV slots nib rest value
      .ok (.branch slots' nodeValue)
  | .blank => .ok .blank

/-- Branch-slot walk of `ver_17.py`'s `_insert_recursive` (same code as
`eth_pat.py`'s branch case). -/
def insertSlotsV (slots : List (Option MPTNode)) (nib : Nat)
    (rest : List Nat) (value : PyVal) :
    Except PyErr (List (Option MPTNode)) :=
  match slots, nib with
  | [], _ => .error .indexError
  | c :: cs, 0 =>
    match c with
    | none => .ok (some (.leaf rest (some value)) :: cs)
    | some child => do
      let child' ← insertRecursiveV child rest value
      .ok (some child' :: cs)
  | c :: cs, n + 1 => do
    let cs' ← insertSlotsV cs n rest value
    .ok (c :: cs')
end

end Ver17

namespace MainPy

/-!
Model of `src/py/main.py`'s `MerklePatriciaNode` / `MerklePatriciaTree`
(the third, character-keyed Merkle Patricia variant with cached digests and
`verify_integrity`).

Representation notes:
* `children` is the node's dict `Dict[str, Tuple[str, Node]]` as an
  association list of `(first_char, full_path, child)`.  `calculate_hash`
  iterates `sorted(self.children.items())`; the model keeps the list sorted
  by key at all times (`assocSet` inserts in order), which makes the stored
  order coincide with the sorted iteration order — a Python dict's
  insertion order is observable nowhere else.
* `hcache` is the node's `hash` attribute (`None` until first computed).
* Both `insert` and `verify_integrity` call
  `calculate_hash(force_recalculate=True)`, which recomputes every node's
  digest bottom-up and overwrites the caches; this is split here into the
  pure digest `calcStream` (the byte stream fed to the hasher, see the file
  header) and the cache-writing `refresh`.  The `force_recalculate=False`
  path that reads stale child caches is never exercised by the tree code.
-/

/-- `MerklePatriciaNode`: children dict, end-of-word flag, optional value,
cached digest. -/
inductive MNode where
  | mk (children : List (Nat × List Nat × MNode)) (isEnd : Bool)
      (value : Option PyVal) (hcache : Option (List Nat)) : MNode

/-- The `children` field. -/
def MNode.children : MNode → List (Nat × List Nat × MNode)
  | .mk c _ _ _ => c

/-- The `is_end_of_word` field. -/
def MNode.isEnd : MNode → Bool
  | .mk _ e _ _ => e

/-- The `value` field. -/
def MNode.value : MNode → Option PyVal
  | .mk _ _ v _ => v

/-- The cached `hash` field. -/
def MNode.hcache : MNode → Option (List Nat)
  | .mk _ _ _ h => h

/-- Dict lookup `node.children.get(first_char)`. -/
def assocFind : List (Nat × List Nat × MNode) → Nat → Option (List Nat × MNode)
  | [], _ => none
  | (k, l, n) :: rest, c =>
    if k = c then some (l, n) else assocFind rest c

/-- Dict store `node.children[first_char] = (path, node)`: replaces the
entry with that key, or inserts it keeping the list sorted by key. -/
def assocSet (children : List (Nat × List Nat × MNode)) (c : Nat)
    (entry : List Nat × MNode) : List (Nat × List Nat × MNode) :=
  match children with
  | [] => [(c, entry.1, entry.2)]
  | (k, l, n) :: rest =>
    if c < k then (c, entry.1, entry.2) :: (k, l, n) :: rest
    else if c = k then (c, entry.1, entry.2) :: rest
    else (k, l, n) :: assocSet rest c entry

/-- In-place update of the child node stored under key `c`, keeping the
key and the path label (models mutating the child object the dict entry
points to). -/
def assocReplace (children : List (Nat × List Nat × MNode)) (c : Nat)
    (child' : MNode) : List (Nat × List Nat × MNode) :=
  match children with
  | [] => []
  | (k, l, n) :: rest =>
    if k = c then (k, l, child') :: rest
    else (k, l, n) :: assocReplace rest c child'

/-- The value contribution to `calculate_hash`: `str(self.value)` bytes if
the value `is not None`, nothing otherwise. -/
def vEnc : Option PyVal → List Nat
  | none => []
  | some v => pyStrBytes v

/-- Bytes of `str(self.is_end_of_word)`. -/
def boolBytes (b : Bool) : List Nat :=
  if b then [84, 114, 117, 101] else [70, 97, 108, 115, 101]

mutual
/-- `MerklePatriciaNode.calculate_hash(force_recalculate=True)` as the
byte stream fed to SHA-256: the value bytes (when not `None`), then for
each child in ascending key order its path label followed by the child's
digest, then the end-of-word flag. -/
def calcStream : MNode → List Nat
  | .mk children isEnd value _ =>
    vEnc value ++ calcChildren children ++ boolBytes isEnd

/-- The per-child fold of `calculate_hash` over `sorted(children.items())`. -/
def calcChildren : List (Nat × List Nat × MNode) → List Nat
  | [] => []
  | (_, label, child) :: rest => label ++ calcStream child ++ calcChildren rest
end

mutual
/-- The cache-writing effect of `calculate_hash(force_recalculate=True)`:
every node's `hash` attribute is overwritten with its freshly recomputed
digest. -/
def refresh : MNode → MNode
  | .mk children isEnd value hcache =>
    .mk (refreshChildren children) isEnd value
      (some (calcStream (.mk children isEnd value hcache)))

/-- `refresh` mapped over the children entries. -/
def refreshChildren :
    List (Nat × List Nat × MNode) → List (Nat × List Nat × MNode)
  | [] => []
  | (k, l, n) :: rest => (k, l, refresh n) :: refreshChildren rest
end

/-- `MerklePatriciaTree.verify_integrity`: compare the cached root digest
with the recomputed one. -/
def verifyIntegrity (root : MNode) : Bool :=
  root.hcache == some (calcStream root)

/-- `MerklePatriciaTree._common_prefix_length` (same code as the other
variants'). -/
def commonPrefixLenM : List Nat → List Nat → Nat
  | a :: as, b :: bs => if a = b then commonPrefixLenM as bs + 1 else 0
  | _, _ => 0

/-- `MerklePatriciaTree._insert_helper`, fuel-indexed.  The fuel only
bounds the recursion depth (each recursive call consumes at least one key
character on every tree reachable through `insert`, so
`remaining.length + 1` fuel at the root always suffices); no theorem below
depends on the bound.  The fuel-exhausted fallback returns the node
unchanged and is unreachable. -/
def insertHelperF : Nat → MNode → List Nat → PyVal → MNode
  | 0, node, _, _ => node
  | fuel + 1, node, remaining, value =>
    match remaining with
    | [] => .mk node.children true (some value) node.hcache
    | first :: _ =>
      match assocFind node.children first with
      | some (fullPath, child) =>
        let c := commonPrefixLenM remaining fullPath
        if c = fullPath.length then
          .mk (assocReplace node.children first
                (insertHelperF fuel child (remaining.drop c) value))
            node.isEnd node.value node.hcache
        else
          let oldRem := fullPath.drop c
          let mid1 :=
            match oldRem with
            | o0 :: _ => MNode.mk [(o0, oldRem, child)] false none none
            | [] => MNode.mk child.children child.isEnd child.value none
          let newRem := remaining.drop c
          let mid2 :=
            if newRem ≠ [] then insertHelperF fuel mid1 newRem value
            else .mk mid1.children true (some value) mid1.hcache
          .mk (assocSet node.children first (fullPath.take c, mid2))
            node.isEnd node.value node.hcache
      | none =>
        .mk (assocSet node.children first
              (remaining, .mk [] true (some value) none))
          node.isEnd node.value node.hcache

/-- `_insert_helper` entered from `insert` with adequate fuel. -/
def insertHelper (node : MNode) (remaining : List Nat) (value : PyVal) :
    MNode :=
  insertHelperF (remaining.length + 1) node remaining value

/-- `MerklePatriciaTree.insert` acting on the root: rejects an empty key
(`ValueError("Key cannot be empty")`), mutates via `_insert_helper`, then
recomputes and caches every digest. -/
def insertTree (root : MNode) (key : List Nat) (value : PyVal) :
    Except PyErr MNode :=
  if key = [] then .error .valueError
  else .ok (refresh (insertHelper root key value))

/-- Locates the value of the node reached from `root` by following the
given child keys (dict keys along the path); `none` when no such node
exists. -/
def valueAt : List Nat → MNode → Option (Option PyVal)
  | [], n => some n.value
  | c :: loc, n =>
    match assocFind n.children c with
    | none => none
    | some (_, child) => valueAt loc child

/-- Out-of-band tampering: replace the value of the node reached by the
given child keys, touching neither the tree structure nor any cached
digest. -/
def tamperAt : List Nat → Option PyVal → MNode → Option MNode
  | [], v', n => some (.mk n.children n.isEnd v' n.hcache)
  | c :: loc, v', n =>
    match assocFind n.children c with
    | none => none
    | some (_, child) =>
      match tamperAt loc v' child with
      | none => none
      | some child' => some (.mk (assocReplace n.children c child')
          n.isEnd n.value n.hcache)

/-- The empty tree root: `MerklePatriciaNode()`. -/
def emptyMNode : MNode := .mk [] false none none

end MainPy

namespace EthPat

/-! Codec lemmas. -/

theorem hexDigits_single (b : Nat) (h1 : 0 < b) (h2 : b < 16) :
    hexDigits b = [b] := by
  match b, h1 with
  | b + 1, _ =>
    rw [hexDigits]
    rw [Nat.div_eq_of_lt h2, Nat.mod_eq_of_lt h2]
    rw [hexDigits]
    simp

theorem format02x_byte (b : Nat) (h : b < 256) :
    format02x b = [b / 16, b % 16] := by
  rcases Nat.lt_or_ge b 16 with h16 | h16
  · rcases Nat.eq_zero_or_pos b with rfl | hb
    · rw [format02x, hexDigits]
      simp
    · rw [format02x, hexDigits_single b hb h16]
      simp [Nat.div_eq_of_lt h16, Nat.mod_eq_of_lt h16]
  · obtain ⟨m, rfl⟩ : ∃ m, b = m + 1 := ⟨b - 1, by omega⟩
    rw [format02x, hexDigits]
    have hq1 : 0 < (m + 1) / 16 := Nat.div_pos h16 (by norm_num)
    have hq2 : (m + 1) / 16 < 16 := Nat.div_lt_of_lt_mul (by omega)
    rw [hexDigits_single _ hq1 hq2]
    simp

theorem stringToNibbles_bytes (k : List Nat) (h : ∀ b ∈ k, b < 256) :
    stringToNibbles k = k.flatMap (fun b => [b / 16, b % 16]) := by
  induction k with
  | nil => simp [stringToNibbles]
  | cons b rest ih =>
    rw [stringToNibbles, format02x_byte b (h b (by simp))]
    rw [ih (fun x hx => h x (by simp [hx]))]
    simp [List.flatMap_cons]

theorem flatMapNib_length (k : List Nat) :
    (k.flatMap fun b => [b / 16, b % 16]).length = 2 * k.length := by
  induction k with
  | nil => simp
  | cons b rest ih =>
    rw [List.flatMap_cons, List.length_append, ih]
    simp
    omega

theorem stringToNibbles_length (k : List Nat) (h : ∀ b ∈ k, b < 256) :
    (stringToNibbles k).length = 2 * k.length := by
  rw [stringToNibbles_bytes k h, flatMapNib_length]

theorem pairUp_roundTrip (k : List Nat) :
    pairUp (k.flatMap (fun b => [b / 16, b % 16])) = k := by
  induction k with
  | nil => simp [pairUp]
  | cons b rest ih =>
    rw [List.flatMap_cons, List.cons_append, List.cons_append, List.nil_append]
    rw [pairUp, ih]
    congr 1
    omega

theorem hexDigits_lt16 (n : Nat) : ∀ x ∈ hexDigits n, x < 16 := by
  induction n using Nat.strong_induction_on with
  | _ n ih =>
    match n with
    | 0 => simp [hexDigits]
    | m + 1 =>
      rw [hexDigits]
      intro x hx
      rcases List.mem_append.mp hx with h1 | h2
      · exact ih ((m + 1) / 16) (Nat.div_lt_self (Nat.succ_pos m) (by norm_num)) x h1
      · simp at h2
        omega

theorem format02x_lt16 (c : Nat) : ∀ x ∈ format02x c, x < 16 := by
  intro x hx
  rw [format02x] at hx
  by_cases hl : (hexDigits c).length < 2
  · simp [hl] at hx
    rcases hx with ⟨_, rfl⟩ | h2
    · norm_num
    · exact hexDigits_lt16 c x h2
  · simp [hl] at hx
    exact hexDigits_lt16 c x hx

theorem stringToNibbles_lt16 (k : List Nat) : ∀ x ∈ stringToNibbles k, x < 16 := by
  induction k with
  | nil => simp [stringToNibbles]
  | cons b rest ih =>
    rw [stringToNibbles]
    intro x hx
    rcases List.mem_append.mp hx with h1 | h2
    · exact format02x_lt16 b x h1
    · exact ih x h2

end EthPat

open EthPat in
/-- Claim C6 (confirmed): for every byte-string key `k`,
`nibbles_to_string (string_to_nibbles k) = k` — the nibble codec
round-trips. -/
theorem claim_C6_roundtrip (k : List Nat) (h : ∀ b ∈ k, b < 256) :
    nibblesToString (stringToNibbles k) = .ok k := by
  rw [nibblesToString]
  rw [stringToNibbles_length k h]
  simp [Nat.mul_mod_right]
  rw [stringToNibbles_bytes k h, pairUp_roundTrip]

open EthPat in
/-- Witness for C6 at the key "cat". -/
theorem claim_C6_witness :
    (∀ b ∈ [99, 97, 116], b < 256) ∧
      nibblesToString (stringToNibbles [99, 97, 116]) = .ok [99, 97, 116] :=
  ⟨by decide, claim_C6_roundtrip [99, 97, 116] (by decide)⟩

open EthPat in
/-- Claim C7 (confirmed): `nibbles_to_string` on every odd-length nibble
sequence raises `ValueError` ("Invalid nibbles length") instead of
returning a byte string. -/
theorem claim_C7_decode_failure (ns : List Nat) (h : ns.length % 2 = 1) :
    nibblesToString ns = .error .valueError := by
  rw [nibblesToString]
  simp [h]

open EthPat in
/-- Witness for C7 at the single-nibble sequence `[6]`. -/
theorem claim_C7_witness :
    [6].length % 2 = 1 ∧ nibblesToString [6] = .error .valueError :=
  ⟨by decide, claim_C7_decode_failure [6] (by decide)⟩

open EthPat in
/-- Claim C8 (confirmed): `string_to_nibbles` is deterministic and total
(it is a function), and on every byte-string key it produces exactly
`2 * len(key)` nibbles, each byte contributing its high nibble followed by
its low nibble. -/
theorem claim_C8_encode_length (k : List Nat) (h : ∀ b ∈ k, b < 256) :
    (stringToNibbles k).length = 2 * k.length ∧
      stringToNibbles k = k.flatMap (fun b => [b / 16, b % 16]) :=
  ⟨stringToNibbles_length k h, stringToNibbles_bytes k h⟩

open EthPat in
/-- Witness for C8 at the key "cat". -/
theorem claim_C8_witness :
    (∀ b ∈ [99, 97, 116], b < 256) ∧
      (stringToNibbles [99, 97, 116]).length = 2 * [99, 97, 116].length ∧
      stringToNibbles [99, 97, 116] =
        [99, 97, 116].flatMap (fun b => [b / 16, b % 16]) :=
  ⟨by decide, claim_C8_encode_length [99, 97, 116] (by decide)⟩

open EthPat in
/-- Claim C10 (confirmed): `MPT17Node.calculate_hash` guards the leaf
value with Python truthiness (`if self.value`), so a Leaf's digest is the
same for every falsy stored value (`0`, `""`, `False`, `None`): the value
contributes the empty byte string. -/
theorem claim_C10_falsy_hash (p : List Nat) (v w : Option PyVal)
    (hv : pyTruthyO v = false) (hw : pyTruthyO w = false) :
    hashStream (.leaf p v) = hashStream (.leaf p w) := by
  rw [hashStream, hashStream, hv, hw]
  simp

open EthPat in
/-- Witness for C10: a Leaf with value `0` hashes like a Leaf with value
`None` on the path of key "cat". -/
theorem claim_C10_witness :
    pyTruthyO (some (.int 0)) = false ∧ pyTruthyO none = false ∧
      hashStream (.leaf [6, 3, 6, 1, 7, 4] (some (.int 0))) =
        hashStream (.leaf [6, 3, 6, 1, 7, 4] none) :=
  ⟨by decide, rfl, claim_C10_falsy_hash [6, 3, 6, 1, 7, 4] _ _ (by decide) rfl⟩

open EthPat in
/-- Claim C1 (code bug): read-after-write fails on the source.  Inserting
`("a", 1)` then `("b", 2)` builds `Extension("6") → Branch{1: Leaf("", 1),
2: Leaf("", 2)}`; the subsequent `insert("ab", 3)` reaches the empty-path
leaf `Leaf("", 1)` with two nibbles left, falls into the
`common_len == 0` split branch of `_insert_recursive`'s leaf case, and
`int(node.path[0], 16)` raises `IndexError` on the empty path — so no
state exists in which `search("ab")` could return 3. -/
theorem claim_C1_read_after_write :
    buildTrie [([97], .int 1), ([98], .int 2), ([97, 98], .int 3)] =
      .error .indexError := by
  simp [buildTrie, insertT, insertRecursive, insertSlots, stringToNibbles,
        format02x, hexDigits, commonPrefixLength, emptySlots, List.foldlM,
        Bind.bind, Except.bind, pure, Except.pure]

open EthPat in
/-- Claim C3 (code bug): the insertion order `cat, car, card` — the
specification's own order-independence scenario and the data of the
source's `test_tree_display` — aborts with `IndexError` (inserting "card"
reaches the empty-path leaf holding "car"'s value), so no final root
digest exists for that permutation; the permutations that do complete
(`card, car, cat` and `car, card, cat`) produce identical tries. -/
theorem claim_C3_order_independence :
    buildTrie [([99, 97, 116], .int 100), ([99, 97, 114], .int 200),
        ([99, 97, 114, 100], .int 300)] = .error .indexError ∧
      buildTrie [([99, 97, 114, 100], .int 300), ([99, 97, 114], .int 200),
          ([99, 97, 116], .int 100)] =
        buildTrie [([99, 97, 114], .int 200), ([99, 97, 114, 100], .int 300),
          ([99, 97, 116], .int 100)] ∧
      (buildTrie [([99, 97, 114, 100], .int 300), ([99, 97, 114], .int 200),
          ([99, 97, 116], .int 100)]).isOk = true := by
  refine ⟨?_, ?_, ?_⟩ <;>
    simp [buildTrie, insertT, insertRecursive, insertSlots, stringToNibbles,
          format02x, hexDigits, commonPrefixLength, emptySlots, List.foldlM,
          Bind.bind, Except.bind, pure, Except.pure, Except.isOk, Except.toBool]

open EthPat in
/-- Claim C4 (code bug): `MerklePatriciaTrie17.insert` and `search` have
no empty-key validation.  `insert("", 7)` on the empty trie succeeds and
replaces the Blank root with `Leaf(path="", value=7)` — the trie is
modified and no `EmptyKey`-style error is raised — and `search("")` then
returns the stored value. -/
theorem claim_C4_empty_key :
    insertT .blank [] (.int 7) = .ok (.leaf [] (some (.int 7))) ∧
      searchT (.leaf [] (some (.int 7))) [] = some (.int 7) := by
  constructor
  · simp [insertT, stringToNibbles]
  · simp [searchT, searchRecursive, stringToNibbles]

open EthPat in
/-- Claim C2 (code bug): `ver_17.py`'s `_insert_recursive` reaches its
Extension case with `common_len (= 0) < len(node.path) (= 1)` — a
divergence that the specification says must split the Extension into a
Branch — and returns the Extension node unchanged, silently dropping the
new value (the branch is annotated "implementation omitted - more
complex"). -/
theorem claim_C2_extension_split :
    Ver17.insertRecursiveV (.ext [6] (some (.leaf [] (some (.int 1)))))
        [7, 0] (.int 2) =
      .ok (.ext [6] (some (.leaf [] (some (.int 1))))) := by
  simp [Ver17.insertRecursiveV, commonPrefixLength]

namespace EthPat

theorem wfSlots_replicate (k : Nat) : wfSlots (List.replicate k none) = true := by
  induction k with
  | zero => simp [wfSlots]
  | succ n ih => rw [List.replicate_succ, wfSlots, wfChild, ih]; simp

theorem wfSlots_emptySlots : wfSlots emptySlots = true :=
  wfSlots_replicate 17

theorem wfNode_leaf (p : List Nat) (v : Option PyVal) :
    wfNode (.leaf p v) = true := by
  rw [wfNode]

theorem wfChild_some (n : MPTNode) : wfChild (some n) = wfNode n := by
  rw [wfChild]

theorem wfChild_none : wfChild none = true := by
  rw [wfChild]

theorem wfNode_ext_eq (p : List Nat) (c : Option MPTNode) :
    wfNode (.ext p c) = (!p.isEmpty && wfChild c) := by
  rw [wfNode]

theorem wfNode_branch_eq (s : List (Option MPTNode)) (v : Option PyVal) :
    wfNode (.branch s v) = ((s.any Option.isSome || v.isSome) && wfSlots s) := by
  rw [wfNode]

theorem wfSlots_set (l : List (Option MPTNode)) (n : Nat) (x : Option MPTNode)
    (hl : wfSlots l = true) (hx : wfChild x = true) :
    wfSlots (l.set n x) = true := by
  induction l generalizing n with
  | nil => simpa using hl
  | cons c cs ih =>
    rw [wfSlots, Bool.and_eq_true] at hl
    match n with
    | 0 => rw [List.set_cons_zero, wfSlots, hx, hl.2]; simp
    | m + 1 => rw [List.set_cons_succ, wfSlots, ih m hl.2]; simp [hl.1]

theorem any_isSome_set (l : List (Option MPTNode)) (n : Nat) (x : MPTNode)
    (hn : n < l.length) :
    (l.set n (some x)).any Option.isSome = true := by
  induction l generalizing n with
  | nil => simp at hn
  | cons c cs ih =>
    match n with
    | 0 => simp [List.set_cons_zero]
    | m + 1 =>
      rw [List.set_cons_succ, List.any_cons, ih m (by simpa using hn)]
      simp

theorem commonPrefixLength_le_left (a b : List Nat) :
    commonPrefixLength a b ≤ a.length := by
  induction a generalizing b with
  | nil => simp [commonPrefixLength]
  | cons x xs ih =>
    match b with
    | [] => simp [commonPrefixLength]
    | y :: ys =>
      rw [commonPrefixLength]
      by_cases hxy : x = y
      · simp only [hxy, if_pos rfl, List.length_cons]
        exact Nat.succ_le_succ (ih ys)
      · simp [hxy]

theorem emptySlots_length : emptySlots.length = 17 := by
  simp [emptySlots]

theorem take_cpl_ne_nil (path rem : List Nat)
    (h : 0 < commonPrefixLength path rem) :
    ¬(path.take (commonPrefixLength path rem)).isEmpty := by
  have hle := commonPrefixLength_le_left path rem
  rw [List.isEmpty_iff]
  intro hcontra
  have hlen := congrArg List.length hcontra
  rw [List.length_take, List.length_nil] at hlen
  omega

theorem head_drop_mem (l : List Nat) (n x : Nat) (xs : List Nat)
    (h : l.drop n = x :: xs) : x ∈ l := by
  have hx : x ∈ l.drop n := by rw [h]; exact List.mem_cons_self x xs
  exact List.drop_subset n l hx

theorem b0_facts (oldN : Nat) (oldRest : List Nat) (child : Option MPTNode)
    (hwc : wfChild child = true) :
    wfSlots (if oldRest.length ≥ 1 then
        emptySlots.set oldN (some (.ext oldRest child))
      else emptySlots.set oldN child) = true ∧
    (if oldRest.length ≥ 1 then
        emptySlots.set oldN (some (.ext oldRest child))
      else emptySlots.set oldN child).length = 17 := by
  by_cases hlen : oldRest.length ≥ 1
  · rw [if_pos hlen]
    refine ⟨wfSlots_set _ _ _ wfSlots_emptySlots ?_, by rw [List.length_set, emptySlots_length]⟩
    rw [wfChild_some, wfNode_ext_eq, Bool.and_eq_true]
    refine ⟨?_, hwc⟩
    simp only [Bool.not_eq_eq_eq_not, Bool.not_true, List.isEmpty_eq_false]
    intro hcon
    rw [hcon] at hlen
    simp at hlen
  · rw [if_neg hlen]
    exact ⟨wfSlots_set _ _ _ wfSlots_emptySlots hwc,
      by rw [List.length_set, emptySlots_length]⟩

theorem insertRecursive_wf (node : MPTNode) (remaining : List Nat) (value : PyVal) :
    ∀ node', wfNode node = true → (∀ x ∈ remaining, x < 16) →
      insertRecursive node remaining value = .ok node' → wfNode node' = true := by
  refine insertRecursive.induct
    (fun node remaining value =>
      ∀ node', wfNode node = true → (∀ x ∈ remaining, x < 16) →
        insertRecursive node remaining value = .ok node' → wfNode node' = true)
    (fun slots nib rest value =>
      ∀ slots', wfSlots slots = true → (∀ x ∈ rest, x < 16) →
        insertSlots slots nib rest value = .ok slots' →
        wfSlots slots' = true ∧ slots'.any Option.isSome = true)
    ?_ ?_ ?_ ?_ ?_ ?_ ?_ ?_ ?_ ?_ ?_ ?_ ?_ ?_ ?_ ?_ ?_ ?_ ?_ node remaining value
  -- 1: leaf, exact key match: value overwritten in place
  · intro rem v path nv
    dsimp only
    intro hc node' hwf hlt heq
    simp only [insertRecursive] at heq
    rw [if_pos hc] at heq
    cases heq
    rw [wfNode]
  -- 2: leaf split with 0 < common prefix
  · intro rem v path nv
    dsimp only
    intro hne hpos node' hwf hlt heq
    simp only [insertRecursive] at heq
    rw [if_neg hne, if_pos hpos] at heq
    have htake := take_cpl_ne_nil path rem hpos
    rcases hd1 : path.drop (commonPrefixLength path rem) with _ | ⟨oldN, oldRest⟩
    · rcases hd2 : rem.drop (commonPrefixLength path rem) with _ | ⟨newN, newRest⟩
      · rw [hd1, hd2] at heq
        simp only at heq
        cases heq
        simp only [wfNode_ext_eq, wfChild_some, wfNode_branch_eq, Bool.and_eq_true,
          Bool.or_eq_true]
        exact ⟨by simp [htake], Or.inr (by simp), wfSlots_emptySlots⟩
      · rw [hd1, hd2] at heq
        simp only at heq
        cases heq
        have hmem : newN < 16 := hlt newN (head_drop_mem rem _ newN newRest hd2)
        simp only [wfNode_ext_eq, wfChild_some, wfNode_branch_eq, Bool.and_eq_true,
          Bool.or_eq_true]
        refine ⟨by simp [htake], Or.inl ?_, ?_⟩
        · exact any_isSome_set _ _ _ (by rw [emptySlots_length]; omega)
        · exact wfSlots_set _ _ _ wfSlots_emptySlots (by rw [wfChild_some, wfNode_leaf])
    · rcases hd2 : rem.drop (commonPrefixLength path rem) with _ | ⟨newN, newRest⟩
      · rw [hd1, hd2] at heq
        simp only at heq
        cases heq
        simp only [wfNode_ext_eq, wfChild_some, wfNode_branch_eq, Bool.and_eq_true,
          Bool.or_eq_true]
        refine ⟨by simp [htake], Or.inr (by simp), ?_⟩
        exact wfSlots_set _ _ _ wfSlots_emptySlots (by rw [wfChild_some, wfNode_leaf])
      · rw [hd1, hd2] at heq
        simp only at heq
        cases heq
        have hmem : newN < 16 := hlt newN (head_drop_mem rem _ newN newRest hd2)
        simp only [wfNode_ext_eq, wfChild_some, wfNode_branch_eq, Bool.and_eq_true,
          Bool.or_eq_true]
        refine ⟨by simp [htake], Or.inl ?_, ?_⟩
        · exact any_isSome_set _ _ _ (by rw [List.length_set, emptySlots_length]; omega)
        · exact wfSlots_set _ _ _
            (wfSlots_set _ _ _ wfSlots_emptySlots (by rw [wfChild_some, wfNode_leaf]))
            (by rw [wfChild_some, wfNode_leaf])
  -- 3: leaf with empty path, no common prefix: IndexError (vacuous)
  · intro rem v nv
    dsimp only
    intro hne hnpos node' hwf hlt heq
    simp only [insertRecursive] at heq
    rw [if_neg hne, if_neg hnpos] at heq
    simp at heq
  -- 4: leaf, nonempty path, empty remaining, no common prefix: IndexError (vacuous)
  · intro v nv p0 prest
    dsimp only
    intro hne hnpos node' hwf hlt heq
    simp only [insertRecursive] at heq
    rw [if_neg hne, if_neg hnpos] at heq
    simp at heq
  -- 5: leaf, both nonempty, zero common prefix: direct branch
  · intro v nv p0 prest r0 rrest
    dsimp only
    intro hne hnpos node' hwf hlt heq
    simp only [insertRecursive] at heq
    rw [if_neg hne, if_neg hnpos] at heq
    cases heq
    have hmem : r0 < 16 := hlt r0 (List.mem_cons_self r0 rrest)
    simp only [wfNode_branch_eq, Bool.and_eq_true, Bool.or_eq_true]
    refine ⟨Or.inl ?_, ?_⟩
    · exact any_isSome_set _ _ _ (by rw [List.length_set, emptySlots_length]; omega)
    · exact wfSlots_set _ _ _
        (wfSlots_set _ _ _ wfSlots_emptySlots (by rw [wfChild_some, wfNode_leaf]))
        (by rw [wfChild_some, wfNode_leaf])
  -- 6: extension, full path match, child present: descend
  · intro rem v path
    dsimp only
    intro hc ch ih node' hwf hlt heq
    simp only [insertRecursive] at heq
    rw [if_pos hc] at heq
    cases hrec : insertRecursive ch (rem.drop (commonPrefixLength path rem)) v with
    | error e =>
      rw [hrec] at heq
      simp [Bind.bind, Except.bind] at heq
    | ok ch' =>
      rw [hrec] at heq
      simp only [Bind.bind, Except.bind] at heq
      cases heq
      obtain ⟨hpe, hwc⟩ := by
        rw [wfNode_ext_eq, Bool.and_eq_true] at hwf
        exact hwf
      rw [wfChild_some] at hwc
      have hlt' : ∀ x ∈ rem.drop (commonPrefixLength path rem), x < 16 :=
        fun x hx => hlt x (List.drop_subset _ rem hx)
      rw [wfNode_ext_eq, Bool.and_eq_true, wfChild_some]
      exact ⟨hpe, ih ch' hwc hlt' hrec⟩
  -- 7: extension, full path match, no child: node returned unchanged
  · intro rem v path
    dsimp only
    intro hc node' hwf hlt heq
    simp only [insertRecursive] at heq
    rw [if_pos hc] at heq
    cases heq
    exact hwf
  -- 8: extension split, 0 < c, empty old suffix: impossible, modelled IndexError (vacuous)
  · intro rem v path child
    dsimp only
    intro hne hpos hd node' hwf hlt heq
    rw [insertRecursive.eq_def] at heq
    simp only at heq
    rw [if_neg hne, if_pos hpos, hd] at heq
    simp at heq
  -- 9: extension split, 0 < c, old suffix oldN :: oldRest
  · intro rem v path child
    dsimp only
    intro hne hpos oldN oldRest hd node' hwf hlt heq
    rw [insertRecursive.eq_def] at heq
    simp only at heq
    rw [if_neg hne, if_pos hpos, hd] at heq
    simp only at heq
    obtain ⟨hpe, hwc⟩ := by
      rw [wfNode_ext_eq, Bool.and_eq_true] at hwf
      exact hwf
    have htake := take_cpl_ne_nil path rem (by omega)
    have hb0 := b0_facts oldN oldRest child hwc
    rcases hd2 : rem.drop (commonPrefixLength path rem) with _ | ⟨newN, newRest⟩
    · rw [hd2] at heq
      simp only at heq
      cases heq
      simp only [wfNode_ext_eq, wfChild_some, wfNode_branch_eq, Bool.and_eq_true,
        Bool.or_eq_true]
      exact ⟨by simp [htake], Or.inr (by simp), hb0.1⟩
    · rw [hd2] at heq
      simp only at heq
      cases heq
      have hmem : newN < 16 := hlt newN (head_drop_mem rem _ newN newRest hd2)
      simp only [wfNode_ext_eq, wfChild_some, wfNode_branch_eq, Bool.and_eq_true,
        Bool.or_eq_true]
      refine ⟨by simp [htake], Or.inl ?_, ?_⟩
      · exact any_isSome_set _ _ _ (by rw [hb0.2]; omega)
      · exact wfSlots_set _ _ _ hb0.1 (by rw [wfChild_some, wfNode_leaf])
  -- 10: extension with empty path and no common prefix: contradictory guards (vacuous)
  · intro rem v child
    dsimp only
    intro hne hnpos node' hwf hlt heq
    exact absurd (by simp [commonPrefixLength]) hne
  -- 11: extension, nonempty path, empty remaining, zero common: IndexError (vacuous)
  · intro v child p0 prest
    dsimp only
    intro hne hnpos node' hwf hlt heq
    rw [insertRecursive.eq_def] at heq
    simp only at heq
    rw [if_neg hne, if_neg hnpos] at heq
    simp at heq
  -- 12: extension, both nonempty, zero common prefix: direct branch
  · intro v child p0 prest r0 rrest
    dsimp only
    intro hne hnpos node' hwf hlt heq
    rw [insertRecursive.eq_def] at heq
    simp only at heq
    rw [if_neg hne, if_neg hnpos] at heq
    cases heq
    obtain ⟨hpe, hwc⟩ := by
      rw [wfNode_ext_eq, Bool.and_eq_true] at hwf
      exact hwf
    have hmem : r0 < 16 := hlt r0 (List.mem_cons_self r0 rrest)
    have hb0 := b0_facts p0 prest child hwc
    simp only [wfNode_branch_eq, Bool.and_eq_true, Bool.or_eq_true]
    refine ⟨Or.inl ?_, ?_⟩
    · exact any_isSome_set _ _ _ (by rw [hb0.2]; omega)
    · exact wfSlots_set _ _ _ hb0.1 (by rw [wfChild_some, wfNode_leaf])
  -- 13: branch, empty remaining: terminator set
  · intro v slots nv node' hwf hlt heq
    simp only [insertRecursive] at heq
    cases heq
    have hs := by
      rw [wfNode_branch_eq, Bool.and_eq_true] at hwf
      exact hwf.2
    simp only [wfNode_branch_eq, Bool.and_eq_true, Bool.or_eq_true]
    exact ⟨Or.inr (by simp), hs⟩
  -- 14: branch, nonempty remaining: recurse into the slot
  · intro v slots nv nib rest ih node' hwf hlt heq
    simp only [insertRecursive] at heq
    cases hrec : insertSlots slots nib rest v with
    | error e =>
      rw [hrec] at heq
      simp [Bind.bind, Except.bind] at heq
    | ok slots' =>
      rw [hrec] at heq
      simp only [Bind.bind, Except.bind] at heq
      cases heq
      have hs := by
        rw [wfNode_branch_eq, Bool.and_eq_true] at hwf
        exact hwf.2
      have hlt' : ∀ x ∈ rest, x < 16 := fun x hx => hlt x (by simp [hx])
      obtain ⟨h1, h2⟩ := ih slots' hs hlt' hrec
      simp only [wfNode_branch_eq, Bool.and_eq_true, Bool.or_eq_true]
      exact ⟨Or.inl h2, h1⟩
  -- 15: blank mid-tree: returned unchanged
  · intro rem v node' hwf hlt heq
    simp only [insertRecursive] at heq
    cases heq
    exact hwf
  -- 16: slot walk off the end of the list: IndexError (vacuous)
  · intro nib rest v slots' hwf hlt heq
    exact Except.noConfusion heq
  -- 17: empty slot at position 0: new leaf
  · intro rest v cs slots' hwf hlt heq
    simp only [insertSlots] at heq
    cases heq
    have hcs := by
      rw [wfSlots, Bool.and_eq_true] at hwf
      exact hwf.2
    constructor
    · rw [wfSlots, wfChild_some, wfNode_leaf, hcs]
      simp
    · simp
  -- 18: occupied slot at position 0: recurse
  · intro rest v cs child ih slots' hwf hlt heq
    simp only [insertSlots] at heq
    cases hrec : insertRecursive child rest v with
    | error e =>
      rw [hrec] at heq
      simp [Bind.bind, Except.bind] at heq
    | ok child' =>
      rw [hrec] at heq
      simp only [Bind.bind, Except.bind] at heq
      cases heq
      obtain ⟨hc, hcs⟩ := by
        rw [wfSlots, Bool.and_eq_true] at hwf
        exact hwf
      rw [wfChild_some] at hc
      constructor
      · rw [wfSlots, wfChild_some, ih child' hc hlt hrec, hcs]
        simp
      · simp
  -- 19: slot walk step
  · intro rest v c cs n ih slots' hwf hlt heq
    simp only [insertSlots] at heq
    cases hrec : insertSlots cs n rest v with
    | error e =>
      rw [hrec] at heq
      simp [Bind.bind, Except.bind] at heq
    | ok cs' =>
      rw [hrec] at heq
      simp only [Bind.bind, Except.bind] at heq
      cases heq
      obtain ⟨hc, hcs⟩ := by
        rw [wfSlots, Bool.and_eq_true] at hwf
        exact hwf
      obtain ⟨h1, h2⟩ := ih cs' hcs hlt hrec
      constructor
      · rw [wfSlots, hc, h1]
        simp
      · rw [List.any_cons, h2]
        simp

end EthPat

namespace EthPat

theorem insertT_wf (root : MPTNode) (key : List Nat) (value : PyVal)
    (root' : MPTNode) (hwf : wfNode root = true)
    (heq : insertT root key value = .ok root') : wfNode root' = true := by
  cases root with
  | blank =>
    simp only [insertT] at heq
    cases heq
    rw [wfNode]
  | leaf p v =>
    simp only [insertT] at heq
    exact insertRecursive_wf _ _ _ root' hwf (stringToNibbles_lt16 key) heq
  | ext p c =>
    simp only [insertT] at heq
    exact insertRecursive_wf _ _ _ root' hwf (stringToNibbles_lt16 key) heq
  | branch s v =>
    simp only [insertT] at heq
    exact insertRecursive_wf _ _ _ root' hwf (stringToNibbles_lt16 key) heq

theorem buildTrie_aux_wf (ops : List (List Nat × PyVal)) :
    ∀ t0 t, wfNode t0 = true →
      ops.foldlM (fun t op => insertT t op.1 op.2) t0 = .ok t →
      wfNode t = true := by
  induction ops with
  | nil =>
    intro t0 t h0 heq
    simp only [List.foldlM_nil] at heq
    cases heq
    exact h0
  | cons op rest ih =>
    intro t0 t h0 heq
    rw [List.foldlM_cons] at heq
    cases hstep : insertT t0 op.1 op.2 with
    | error e =>
      rw [hstep] at heq
      simp [Bind.bind, Except.bind] at heq
    | ok t1 =>
      rw [hstep] at heq
      simp only [Bind.bind, Except.bind] at heq
      exact ih t1 t (insertT_wf t0 op.1 op.2 t1 h0 hstep) heq

end EthPat

open EthPat in
/-- Claim C9 (confirmed): in every trie state reachable from the empty
(Blank-rooted) trie by a sequence of `insert` calls that completes without
raising, every Extension node has a non-empty path and every Branch node
has at least one populated child slot or a terminator value. -/
theorem claim_C9_invariant (ops : List (List Nat × PyVal)) (t : MPTNode)
    (heq : buildTrie ops = .ok t) : wfNode t = true :=
  buildTrie_aux_wf ops .blank t (by rw [wfNode]) heq

open EthPat in
/-- Witness for C9: inserting "cat" then "car" completes and the resulting
trie (an Extension over a two-slot Branch) satisfies the invariant. -/
theorem claim_C9_witness :
    buildTrie [([99, 97, 116], .int 100), ([99, 97, 114], .int 200)] =
      .ok (.ext [6, 3, 6, 1, 7]
        (some (.branch ((emptySlots.set 4
            (some (.leaf [] (some (.int 100))))).set 2
            (some (.leaf [] (some (.int 200))))) none))) ∧
    wfNode (.ext [6, 3, 6, 1, 7]
        (some (.branch ((emptySlots.set 4
            (some (.leaf [] (some (.int 100))))).set 2
            (some (.leaf [] (some (.int 200))))) none))) = true := by
  have h : buildTrie [([99, 97, 116], .int 100), ([99, 97, 114], .int 200)] =
      .ok (.ext [6, 3, 6, 1, 7]
        (some (.branch ((emptySlots.set 4
            (some (.leaf [] (some (.int 100))))).set 2
            (some (.leaf [] (some (.int 200))))) none))) := by
    simp [buildTrie, insertT, insertRecursive, insertSlots, stringToNibbles,
          format02x, hexDigits, commonPrefixLength, emptySlots, List.foldlM,
          Bind.bind, Except.bind, pure, Except.pure]
  exact ⟨h, claim_C9_invariant _ _ h⟩

namespace MainPy

theorem calcStream_refresh (n : MNode) :
    calcStream (refresh n) = calcStream n := by
  refine refresh.induct
    (fun n => calcStream (refresh n) = calcStream n)
    (fun ch => calcChildren (refreshChildren ch) = calcChildren ch)
    ?_ ?_ ?_ n
  · intro children isEnd value hcache ih
    rw [refresh]
    rw [calcStream, calcStream, ih]
  · show calcChildren (refreshChildren []) = calcChildren []
    rw [refreshChildren.eq_def]
  · intro k l m rest ih1 ih2
    rw [refreshChildren, calcChildren, calcChildren, ih1, ih2]

theorem hcache_refresh (n : MNode) :
    (refresh n).hcache = some (calcStream n) := by
  cases n with
  | mk c e v h =>
    rw [refresh, MNode.hcache]

theorem verifyIntegrity_refresh (n : MNode) :
    verifyIntegrity (refresh n) = true := by
  rw [verifyIntegrity, hcache_refresh, calcStream_refresh]
  simp

theorem calcChildren_replace_ne (ch : List (Nat × List Nat × MNode)) (c : Nat)
    (lbl : List Nat) (child child' : MNode)
    (hfind : assocFind ch c = some (lbl, child))
    (hne : calcStream child' ≠ calcStream child) :
    calcChildren (assocReplace ch c child') ≠ calcChildren ch := by
  induction ch with
  | nil =>
    rw [assocFind] at hfind
    exact absurd hfind (by simp)
  | cons e rest ih =>
    obtain ⟨k, l, m⟩ := e
    rw [assocFind] at hfind
    by_cases hk : k = c
    · rw [if_pos hk] at hfind
      have hlm : l = lbl ∧ m = child := by
        have := Option.some.inj hfind
        exact ⟨congrArg Prod.fst this, congrArg Prod.snd this⟩
      obtain ⟨rfl, rfl⟩ := hlm
      rw [assocReplace, if_pos hk]
      rw [calcChildren, calcChildren]
      intro hcontra
      have h2 := List.append_cancel_right hcontra
      have h3 := List.append_cancel_left h2
      exact hne h3
    · rw [if_neg hk] at hfind
      rw [assocReplace, if_neg hk]
      rw [calcChildren, calcChildren]
      intro hcontra
      have h2 := List.append_cancel_left hcontra
      exact ih hfind h2

theorem calcStream_tamper_ne (loc : List Nat) :
    ∀ (n : MNode) (v' : Option PyVal) (n' : MNode) (oldv : Option PyVal),
      valueAt loc n = some oldv → tamperAt loc v' n = some n' →
      vEnc v' ≠ vEnc oldv → calcStream n' ≠ calcStream n := by
  induction loc with
  | nil =>
    intro n v' n' oldv hval htam hne
    cases n with
    | mk ch e v h =>
      rw [valueAt] at hval
      simp only [MNode.value] at hval
      have hv : v = oldv := Option.some.inj hval
      rw [tamperAt] at htam
      simp only [MNode.children, MNode.isEnd, MNode.hcache] at htam
      have hn' := Option.some.inj htam
      rw [← hn']
      rw [calcStream, calcStream]
      intro hcontra
      have h2 := List.append_cancel_right hcontra
      have h3 := List.append_cancel_right h2
      exact hne (by rw [← hv]; exact h3)
  | cons c0 loc ih =>
    intro n v' n' oldv hval htam hne
    cases n with
    | mk ch e v h =>
      rw [valueAt] at hval
      rw [tamperAt] at htam
      simp only [MNode.children] at hval htam
      cases hfind : assocFind ch c0 with
      | none =>
        rw [hfind] at hval
        exact absurd hval (by simp)
      | some p =>
        obtain ⟨lbl, child⟩ := p
        rw [hfind] at hval htam
        simp only at hval htam
        cases htam2 : tamperAt loc v' child with
        | none =>
          rw [htam2] at htam
          exact absurd htam (by simp)
        | some child' =>
          rw [htam2] at htam
          simp only at htam
          have hn' := Option.some.inj htam
          rw [← hn']
          simp only [MNode.isEnd, MNode.value, MNode.hcache]
          rw [calcStream, calcStream]
          intro hcontra
          have h2 := List.append_cancel_right hcontra
          have h3 := List.append_cancel_left h2
          exact calcChildren_replace_ne ch c0 lbl child child' hfind
            (ih child v' child' oldv hval htam2 hne) h3

theorem tamperAt_hcache (loc : List Nat) (v' : Option PyVal) (n n' : MNode)
    (htam : tamperAt loc v' n = some n') : n'.hcache = n.hcache := by
  cases loc with
  | nil =>
    rw [tamperAt] at htam
    have := Option.some.inj htam
    rw [← this, MNode.hcache]
  | cons c0 loc =>
    rw [tamperAt] at htam
    cases hfind : assocFind n.children c0 with
    | none =>
      rw [hfind] at htam
      exact absurd htam (by simp)
    | some p =>
      obtain ⟨lbl, child⟩ := p
      rw [hfind] at htam
      simp only at htam
      cases htam2 : tamperAt loc v' child with
      | none =>
        rw [htam2] at htam
        exact absurd htam (by simp)
      | some child' =>
        rw [htam2] at htam
        simp only at htam
        have := Option.some.inj htam
        rw [← this, MNode.hcache]

end MainPy

open MainPy in
/-- Claim C5 (confirmed): `verify_integrity` recomputes the root digest
from scratch and compares it with the cached one.  First part: immediately
after any successful `insert` (which re-caches every digest) it returns
`true`.  Second part: if any node's value is changed out of band — the
tree structure and every cached digest left untouched — and the new
value's hash contribution (`str(value)` bytes, empty for `None`) differs
from the old one, `verify_integrity` returns `false`.  Digests are
modelled as hash preimages, so digest inequality is SHA-256
collision-freeness (see the file header). -/
theorem claim_C5_verify_integrity :
    (∀ (root : MNode) (key : List Nat) (value : PyVal) (root' : MNode),
        insertTree root key value = .ok root' → verifyIntegrity root' = true) ∧
    (∀ (root : MNode) (loc : List Nat) (oldv v' : Option PyVal) (root' : MNode),
        valueAt loc root = some oldv → tamperAt loc v' root = some root' →
        vEnc v' ≠ vEnc oldv → root.hcache = some (calcStream root) →
        verifyIntegrity root' = false) := by
  constructor
  · intro root key value root' h
    rw [insertTree] at h
    by_cases hk : key = []
    · rw [if_pos hk] at h
      exact absurd h (by simp)
    · rw [if_neg hk] at h
      have := Except.ok.inj h
      rw [← this]
      exact verifyIntegrity_refresh _
  · intro root loc oldv v' root' hval htam hne hfresh
    rw [verifyIntegrity]
    rw [tamperAt_hcache loc v' root root' htam, hfresh]
    have hne2 : calcStream root' ≠ calcStream root :=
      calcStream_tamper_ne loc root v' root' oldv hval htam hne
    rw [beq_eq_false_iff_ne]
    intro hcon
    exact hne2 (Option.some.inj hcon).symm

open MainPy in
/-- Witness for C5: inserting the key "c" into an empty tree yields a
state that passes the integrity check; replacing the value `3` of a
freshly-hashed single-node tree by `None` without recomputing the cache
makes the check fail. -/
theorem claim_C5_witness :
    verifyIntegrity (refresh (insertHelper emptyMNode [99] (.int 1))) = true ∧
      verifyIntegrity
        (MNode.mk [] false none (some [51, 70, 97, 108, 115, 101])) = false := by
  constructor
  · exact claim_C5_verify_integrity.1 emptyMNode [99] (.int 1) _
      (by simp [insertTree])
  · exact claim_C5_verify_integrity.2
      (MNode.mk [] false (some (.int 3)) (some [51, 70, 97, 108, 115, 101]))
      [] (some (.int 3)) none _
      (by simp [valueAt, MNode.value])
      (by simp [tamperAt, MNode.children, MNode.isEnd, MNode.hcache])
      (by simp [vEnc, pyStrBytes, intStrBytes, decDigits])
      (by simp [MNode.hcache, calcStream, calcChildren, vEnc, boolBytes,
                pyStrBytes, intStrBytes, decDigits])

namespace EthPat

/-- Supporting fact for claim C2: `eth_pat.py`'s `_insert_recursive`, at an
Extension node whose path diverges from the remaining nibbles
(`common_len != len(node.path)`), never returns the Extension node
unchanged — whenever it returns at all it returns a restructured subtree
(an Extension over a fresh Branch when `common_len > 0`, a fresh Branch
when `common_len = 0`). -/
theorem ethpat_extension_split_restructures (path remaining : List Nat)
    (child : Option MPTNode) (value : PyVal) (result : MPTNode)
    (hne : commonPrefixLength path remaining ≠ path.length)
    (heq : insertRecursive (.ext path child) remaining value = .ok result) :
    result ≠ .ext path child := by
  have hle := commonPrefixLength_le_left path remaining
  have hlt : commonPrefixLength path remaining < path.length :=
    Nat.lt_of_le_of_ne hle hne
  rw [insertRecursive.eq_def] at heq
  simp only at heq
  by_cases hpos : 0 < commonPrefixLength path remaining
  · rw [if_neg hne, if_pos hpos] at heq
    rcases hd : path.drop (commonPrefixLength path remaining) with _ | ⟨oldN, oldRest⟩
    · have := congrArg List.length hd
      rw [List.length_drop, List.length_nil] at this
      omega
    · rw [hd] at heq
      simp only at heq
      have htake : (path.take (commonPrefixLength path remaining)) ≠ path := by
        intro hcon
        have := congrArg List.length hcon
        rw [List.length_take] at this
        omega
      rcases hd2 : remaining.drop (commonPrefixLength path remaining) with _ | ⟨newN, newRest⟩ <;>
        rw [hd2] at heq <;> simp only at heq <;> cases heq <;>
        intro hcon <;> rw [MPTNode.ext.injEq] at hcon <;> exact htake hcon.1
  · rw [if_neg hne, if_neg hpos] at heq
    match path, hne, heq with
    | [], hne, heq =>
      have hz : commonPrefixLength [] remaining = 0 := by
        cases remaining <;> simp [commonPrefixLength]
      rw [hz] at hne
      simp at hne
    | p0 :: prest, hne, heq =>
      match remaining, heq with
      | [], heq => exact Except.noConfusion heq
      | r0 :: rrest, heq =>
        simp only at heq
        cases heq
        simp
end EthPat

open MainPy in
/-- Counterexample for C5 as literally stated: not every out-of-band value
change is detected.  A single-node tree with freshly cached digests holds
the int `100`; replacing it by the string `"100"` is a value change
(`100 != "100"` in Python), yet `calculate_hash` feeds `str(value)` to the
hasher, the byte stream is unchanged and `verify_integrity` still returns
`true` — the claim says it must return `false`. -/
theorem claim_C5_counterexample :
    tamperAt [] (some (.str [49, 48, 48]))
        (MNode.mk [] false (some (.int 100))
          (some [49, 48, 48, 70, 97, 108, 115, 101])) =
      some (MNode.mk [] false (some (.str [49, 48, 48]))
        (some [49, 48, 48, 70, 97, 108, 115, 101])) ∧
    (some (PyVal.int 100) ≠ some (PyVal.str [49, 48, 48])) ∧
    (MNode.mk [] false (some (.int 100))
        (some [49, 48, 48, 70, 97, 108, 115, 101])).hcache =
      some (calcStream (MNode.mk [] false (some (.int 100))
        (some [49, 48, 48, 70, 97, 108, 115, 101]))) ∧
    verifyIntegrity (MNode.mk [] false (some (.str [49, 48, 48]))
        (some [49, 48, 48, 70, 97, 108, 115, 101])) = true := by
  refine ⟨?_, by decide, ?_, ?_⟩
  · simp [tamperAt, MNode.children, MNode.isEnd, MNode.hcache]
  · simp [MNode.hcache, calcStream, calcChildren, vEnc, boolBytes,
          pyStrBytes, intStrBytes, decDigits]
  · simp [verifyIntegrity, MNode.hcache, calcStream, calcChildren, vEnc,
          boolBytes, pyStrBytes, decDigits]
